import Mathlib

/-!
Verification of the vulnscan-extension scan orchestration and patch engine.

Shallow embedding of the TypeScript sources: text is modelled as `List Char`
(JS strings), documents as lists of lines, JS numbers used as integers as
`Int`, optional / nullable JSON fields as `Option`.  Every definition below
is translated from a named function of the repository; external effects
(process execution, the editor document, the enrichment service) are made
explicit as oracle parameters or explicit state.
-/

namespace VulnScan

/-- Text of a Lean string literal in the `List Char` representation used
throughout this development. -/
def str (s : String) : List Char := s.data

/-- JS `String.prototype.toLowerCase`, per-character lowering as used on the
ASCII severity labels in this code base. -/
def lowerTxt (s : List Char) : List Char := s.map Char.toLower

/-- JS `a.includes(b)`: `b` occurs as a contiguous substring of `a` (the
empty needle is always found, as in JS). -/
def containsSub (needle : List Char) : List Char → Bool
  | [] => needle.isPrefixOf []
  | c :: t => needle.isPrefixOf (c :: t) || containsSub needle t

/-- Severity enumeration of `normalize.ts`. -/
inductive Sev
  | info
  | low
  | medium
  | high
  | critical
deriving DecidableEq, Repr

/-- `mapSeverity` from `src/normalize.ts`: lower-case the raw label
(`(s||'').toLowerCase()`), then: contains "crit" → critical, else leading
"h" → high, leading "m" → medium, leading "l" → low, else info. -/
def mapSeverity (s : List Char) : Sev :=
  let t := lowerTxt s
  if containsSub (str "crit") t then .critical
  else if (str "h").isPrefixOf t then .high
  else if (str "m").isPrefixOf t then .medium
  else if (str "l").isPrefixOf t then .low
  else .info

/-- Decimal digit character (only consulted for arguments below 10). -/
def digitChar (n : Nat) : Char :=
  match n with
  | 0 => '0'
  | 1 => '1'
  | 2 => '2'
  | 3 => '3'
  | 4 => '4'
  | 5 => '5'
  | 6 => '6'
  | 7 => '7'
  | 8 => '8'
  | _ => '9'

/-- Worker for `natStr`: the fuel argument makes the digit recursion
structural; any fuel at least the rendered number gives the same digits
(`natStrGo_congr`), and the zero-fuel fallback is only reached for 0. -/
def natStrGo : Nat → Nat → List Char
  | 0, n => [digitChar n]
  | fuel + 1, n =>
    if n < 10 then [digitChar n]
    else natStrGo fuel (n / 10) ++ [digitChar (n % 10)]

/-- Decimal rendering of a natural number, modelling the JS template
interpolation of a non-negative integer; `natStr_eq` recovers the defining
equation. -/
def natStr (n : Nat) : List Char := natStrGo n n

theorem natStrGo_congr (fuel : Nat) : ∀ (fuel' n : Nat), n ≤ fuel → n ≤ fuel' →
    natStrGo fuel n = natStrGo fuel' n := by
  induction fuel with
  | zero =>
    intro fuel' n h h'
    have : n = 0 := by omega
    subst this
    cases fuel' <;> simp [natStrGo]
  | succ fuel ih =>
    intro fuel' n h h'
    cases fuel' with
    | zero =>
      have : n = 0 := by omega
      subst this
      simp [natStrGo]
    | succ fuel' =>
      rw [natStrGo, natStrGo]
      by_cases hn : n < 10
      · rw [if_pos hn, if_pos hn]
      · rw [if_neg hn, if_neg hn, ih fuel' (n / 10) (by omega) (by omega)]

theorem natStr_eq (n : Nat) :
    natStr n = if n < 10 then [digitChar n] else natStr (n / 10) ++ [digitChar (n % 10)] := by
  by_cases h : n < 10
  · rw [if_pos h]
    cases n with
    | zero => rfl
    | succ m => rw [natStr, natStrGo, if_pos h]
  · rw [if_neg h]
    cases n with
    | zero => omega
    | succ m =>
      rw [natStr, natStrGo, if_neg h, natStr,
        natStrGo_congr m ((m + 1) / 10) ((m + 1) / 10) (by omega) (by omega)]

/-- Decimal rendering of an integer, modelling the JS template
interpolation `${i}` for integral JS numbers. -/
def intStr (i : Int) : List Char :=
  if i < 0 then '-' :: natStr i.natAbs else natStr i.toNat

/-- Numeric value of a digit string; inverse of `natStr` used to prove its
injectivity. -/
def digitsVal (l : List Char) : Nat :=
  l.foldl (fun a c => 10 * a + (c.toNat - 48)) 0

theorem digitChar_toNat : ∀ n, n < 10 → (digitChar n).toNat = 48 + n := by decide

theorem digitsVal_append_digit (l : List Char) (c : Char) :
    digitsVal (l ++ [c]) = 10 * digitsVal l + (c.toNat - 48) := by
  simp [digitsVal, List.foldl_append]

theorem digitsVal_natStr : ∀ n, digitsVal (natStr n) = n := by
  intro n
  induction n using Nat.strong_induction_on with
  | _ n ih =>
    rw [natStr_eq]
    by_cases h : n < 10
    · simp only [h, if_pos]
      simp [digitsVal, digitChar_toNat n h]
    · simp only [h, if_neg, not_false_iff, if_false]
      rw [digitsVal_append_digit, ih (n / 10) (Nat.div_lt_self (by omega) (by omega)),
        digitChar_toNat (n % 10) (Nat.mod_lt _ (by omega))]
      omega

theorem natStr_injective : Function.Injective natStr := by
  intro a b h
  have := digitsVal_natStr a
  rw [h, digitsVal_natStr] at this
  omega

theorem natStr_head_digit : ∀ n, ∃ c t, natStr n = c :: t ∧ 48 ≤ c.toNat ∧ c.toNat ≤ 57 := by
  intro n
  induction n using Nat.strong_induction_on with
  | _ n ih =>
    rw [natStr_eq]
    by_cases h : n < 10
    · refine ⟨digitChar n, [], by simp [h], ?_, ?_⟩ <;> rw [digitChar_toNat n h] <;> omega
    · obtain ⟨c, t, hct, h1, h2⟩ := ih (n / 10) (Nat.div_lt_self (by omega) (by omega))
      exact ⟨c, t ++ [digitChar (n % 10)], by simp [h, hct], h1, h2⟩

theorem intStr_injective : Function.Injective intStr := by
  intro a b h
  unfold intStr at h
  by_cases ha : a < 0 <;> by_cases hb : b < 0 <;>
    simp only [ha, hb, if_true, if_false, if_pos, if_neg, not_false_iff] at h
  · simp only [List.cons.injEq, true_and] at h
    have := natStr_injective h
    omega
  · obtain ⟨c, t, hct, h1, _⟩ := natStr_head_digit b.toNat
    rw [hct, List.cons.injEq] at h
    have hc : c = '-' := h.1.symm
    rw [hc] at h1
    have hm : ('-').toNat = 45 := by decide
    omega
  · obtain ⟨c, t, hct, h1, _⟩ := natStr_head_digit a.toNat
    rw [hct, List.cons.injEq] at h
    have hc : c = '-' := h.1
    rw [hc] at h1
    have hm : ('-').toNat = 45 := by decide
    omega
  · have := natStr_injective h
    omega

/-- JS `a || b` for a possibly-missing string: `a` unless it is absent or
empty (falsy). -/
def jsOr (a : Option (List Char)) (b : List Char) : List Char :=
  match a with
  | some s => if s = [] then b else s
  | none => b

/-- JS `a || b` when the fallback is itself possibly missing. -/
def jsOrOpt (a b : Option (List Char)) : Option (List Char) :=
  match a with
  | some s => if s = [] then b else some s
  | none => b

/-- JS `a ?? b` (nullish coalescing) on optional values. -/
def jsNN (a b : Option α) : Option α :=
  match a with
  | some x => some x
  | none => b

/-- Raw semgrep record as consumed by `fromSemgrep` (`src/normalize.ts`,
the sha1-fingerprint variant): one field per JSON path the function reads;
everything optional, as in the duck-typed tool output. -/
structure Raw where
  path : Option (List Char) := none
  extraPath : Option (List Char) := none
  check_id : Option (List Char) := none
  extraRuleId : Option (List Char) := none
  rule_id : Option (List Char) := none
  severity : Option (List Char) := none
  extraMetaSeverity : Option (List Char) := none
  extraMessage : Option (List Char) := none
  message : Option (List Char) := none
  startLine : Option Int := none
  startCol : Option Int := none
  extraStartLine : Option Int := none
  extraStartCol : Option Int := none
  endLine : Option Int := none
  endCol : Option Int := none
  extraEndLine : Option Int := none
  extraEndCol : Option Int := none
  cwe : Option (List Char) := none
  owasp : Option (List Char) := none
  lang : Option (List Char) := none
  extraEngine : Option (List Char) := none
  extraMetaLanguage : Option (List Char) := none
  extraMetaMode : Option (List Char) := none
  extraRuleMode : Option (List Char) := none
  extraVersion : Option (List Char) := none
deriving DecidableEq, Repr

/-- Derived absolute path: `r.path || r.extra?.path || ''`. -/
def absOf (r : Raw) : List Char := jsOr r.path (jsOr r.extraPath [])

/-- Derived rule id: `r.check_id || r.extra?.rule?.id || r.rule_id || 'unknown'`. -/
def ruleIdOf (r : Raw) : List Char :=
  jsOr r.check_id (jsOr r.extraRuleId (jsOr r.rule_id (str "unknown")))

/-- Derived raw severity label: `r.severity || r.extra?.metadata?.severity || 'low'`. -/
def sevRawOf (r : Raw) : List Char :=
  jsOr r.severity (jsOr r.extraMetaSeverity (str "low"))

/-- Derived message: `r.extra?.message || r.message || ''`. -/
def msgOf (r : Raw) : List Char := jsOr r.extraMessage (jsOr r.message [])

/-- 0-based start line: `(r.start?.line ?? r.extra?.start?.line ?? 1) - 1`. -/
def startLine0 (r : Raw) : Int := (jsNN r.startLine r.extraStartLine).getD 1 - 1

/-- 0-based start column: `(r.start?.col ?? r.extra?.start?.col ?? 1) - 1`. -/
def startCol0 (r : Raw) : Int := (jsNN r.startCol r.extraStartCol).getD 1 - 1

/-- 0-based end line: `(r.end?.line ?? r.extra?.end?.line ?? start.line+1) - 1`,
where `start.line` is the already-computed 0-based start line. -/
def endLine0 (r : Raw) : Int :=
  (jsNN r.endLine r.extraEndLine).getD (startLine0 r + 1) - 1

/-- 0-based end column: `(r.end?.col ?? r.extra?.end?.col ?? 1) - 1`. -/
def endCol0 (r : Raw) : Int := (jsNN r.endCol r.extraEndCol).getD 1 - 1

/-- A 0-based line/column position. -/
structure Pos where
  line : Int
  col : Int
deriving DecidableEq, Repr

/-- A finding range; `endP` renders the source field `end` (a Lean keyword). -/
structure RangeLC where
  start : Pos
  endP : Pos
deriving DecidableEq, Repr

/-- Model of `crypto.createHash('sha1').update(s).digest('hex')` from
`node:crypto`.  The digest is a fixed deterministic function of its input,
and the code relies on it being collision-free on the inputs that occur; we
model it as an injective deterministic function and take the identity,
which realises exactly those two properties (determinism and injectivity). -/
def sha1Hex (s : List Char) : List Char := s

/-- The fingerprint pre-image `` `${abs}:${ruleId}:${start.line+1}:${msg}` ``
from `fromSemgrep`. -/
def fpRaw (r : Raw) : List Char :=
  absOf r ++ ':' :: (ruleIdOf r ++ ':' :: (intStr (startLine0 r + 1) ++ ':' :: msgOf r))

/-- Canonical finding of `src/normalize.ts` (sha1-fingerprint variant). -/
structure Finding where
  fingerprint : List Char
  ruleId : List Char
  severity : Sev
  file : List Char
  relFile : List Char
  range : RangeLC
  message : List Char
  engine : List Char
  cwe : Option (List Char)
  owasp : Option (List Char)
  snippet : Option (List Char) := none
  metaLang : Option (List Char)
  metaRuleKind : Option (List Char)
deriving DecidableEq, Repr

/-- Model of node `path.relative(root, abs)` for the guarded case in which
`abs` starts with `root` (the only case the source reaches it): drop the
root and any leading separators (POSIX separator). -/
def pathRelative (root abs : List Char) : List Char :=
  (abs.drop root.length).dropWhile (fun c => c = '/')

/-- Workspace-relative path:
`root && abs.startsWith(root) ? path.relative(root, abs) : (r.path || '')`. -/
def relOf (root : List Char) (r : Raw) : List Char :=
  if root ≠ [] ∧ root.isPrefixOf (absOf r) then pathRelative root (absOf r)
  else jsOr r.path []

/-- JS `x || null` on an optional string: absent or empty collapses to null. -/
def jsOrNull (a : Option (List Char)) : Option (List Char) :=
  match a with
  | some s => if s = [] then none else some s
  | none => none

/-- `fromSemgrep` from `src/normalize.ts` (sha1-fingerprint variant).
`root` models `vscode.workspace.workspaceFolders?.[0]?.uri.fsPath || ''`. -/
def fromSemgrep (root : List Char) (r : Raw) : Finding :=
  { fingerprint := sha1Hex (fpRaw r)
    ruleId := ruleIdOf r
    severity := mapSeverity (sevRawOf r)
    file := absOf r
    relFile := if relOf root r = [] then absOf r else relOf root r
    range := ⟨⟨startLine0 r, startCol0 r⟩, ⟨endLine0 r, endCol0 r⟩⟩
    message := msgOf r
    engine := str "semgrep@" ++ jsOr r.extraVersion (str "unknown")
    cwe := jsOrNull r.cwe
    owasp := jsOrNull r.owasp
    metaLang := jsOrOpt r.lang (jsOrOpt r.extraEngine (jsOrOpt r.extraMetaLanguage none))
    metaRuleKind := jsOrOpt r.extraMetaMode (jsOrOpt r.extraRuleMode none) }

theorem seg4_inj (a₁ a₂ b₁ b₂ c₁ c₂ d₁ d₂ : List Char)
    (h : a₁ ++ ':' :: (b₁ ++ ':' :: (c₁ ++ ':' :: d₁))
       = a₂ ++ ':' :: (b₂ ++ ':' :: (c₂ ++ ':' :: d₂))) :
    (b₁ = b₂ → c₁ = c₂ → d₁ = d₂ → a₁ = a₂) ∧
    (a₁ = a₂ → c₁ = c₂ → d₁ = d₂ → b₁ = b₂) ∧
    (a₁ = a₂ → b₁ = b₂ → d₁ = d₂ → c₁ = c₂) ∧
    (a₁ = a₂ → b₁ = b₂ → c₁ = c₂ → d₁ = d₂) := by
  refine ⟨?_, ?_, ?_, ?_⟩ <;> intro h1 h2 h3 <;> subst h1 <;> subst h2 <;> subst h3
  · exact List.append_left_injective _ h
  · have h' := List.append_right_injective _ h
    injection h' with _ h''
    exact List.append_left_injective _ h''
  · have h' := List.append_right_injective _ h
    injection h' with _ h''
    have h₃ := List.append_right_injective _ h''
    injection h₃ with _ h₄
    exact List.append_left_injective _ h₄
  · have h' := List.append_right_injective _ h
    injection h' with _ h''
    have h₃ := List.append_right_injective _ h''
    injection h₃ with _ h₄
    have h₅ := List.append_right_injective _ h₄
    injection h₅ with _ h₆

/-- C1: the fingerprint computed by `fromSemgrep` is a pure function of
exactly the four derived inputs (absolute file path, rule id, 0-based start
line, message): two raw records agreeing on those four always receive the
same fingerprint, and changing any single one of the four while holding the
other three fixed changes the fingerprint. -/
theorem fingerprint_pure_function_of_four :
    (∀ (root₁ root₂ : List Char) (r₁ r₂ : Raw),
        absOf r₁ = absOf r₂ → ruleIdOf r₁ = ruleIdOf r₂ →
        startLine0 r₁ = startLine0 r₂ → msgOf r₁ = msgOf r₂ →
        (fromSemgrep root₁ r₁).fingerprint = (fromSemgrep root₂ r₂).fingerprint) ∧
    (∀ (root₁ root₂ : List Char) (r₁ r₂ : Raw),
        absOf r₁ ≠ absOf r₂ → ruleIdOf r₁ = ruleIdOf r₂ →
        startLine0 r₁ = startLine0 r₂ → msgOf r₁ = msgOf r₂ →
        (fromSemgrep root₁ r₁).fingerprint ≠ (fromSemgrep root₂ r₂).fingerprint) ∧
    (∀ (root₁ root₂ : List Char) (r₁ r₂ : Raw),
        absOf r₁ = absOf r₂ → ruleIdOf r₁ ≠ ruleIdOf r₂ →
        startLine0 r₁ = startLine0 r₂ → msgOf r₁ = msgOf r₂ →
        (fromSemgrep root₁ r₁).fingerprint ≠ (fromSemgrep root₂ r₂).fingerprint) ∧
    (∀ (root₁ root₂ : List Char) (r₁ r₂ : Raw),
        absOf r₁ = absOf r₂ → ruleIdOf r₁ = ruleIdOf r₂ →
        startLine0 r₁ ≠ startLine0 r₂ → msgOf r₁ = msgOf r₂ →
        (fromSemgrep root₁ r₁).fingerprint ≠ (fromSemgrep root₂ r₂).fingerprint) ∧
    (∀ (root₁ root₂ : List Char) (r₁ r₂ : Raw),
        absOf r₁ = absOf r₂ → ruleIdOf r₁ = ruleIdOf r₂ →
        startLine0 r₁ = startLine0 r₂ → msgOf r₁ ≠ msgOf r₂ →
        (fromSemgrep root₁ r₁).fingerprint ≠ (fromSemgrep root₂ r₂).fingerprint) := by
  refine ⟨?_, ?_, ?_, ?_, ?_⟩ <;> intro root₁ root₂ r₁ r₂ h1 h2 h3 h4
  · show fpRaw r₁ = fpRaw r₂
    unfold fpRaw
    rw [h1, h2, h3, h4]
  · intro hfp
    have h' : fpRaw r₁ = fpRaw r₂ := hfp
    exact h1 ((seg4_inj _ _ _ _ _ _ _ _ h').1 h2 (by rw [h3]) h4)
  · intro hfp
    have h' : fpRaw r₁ = fpRaw r₂ := hfp
    exact h2 ((seg4_inj _ _ _ _ _ _ _ _ h').2.1 h1 (by rw [h3]) h4)
  · intro hfp
    have h' : fpRaw r₁ = fpRaw r₂ := hfp
    have hc := (seg4_inj _ _ _ _ _ _ _ _ h').2.2.1 h1 h2 h4
    have := intStr_injective hc
    omega
  · intro hfp
    have h' : fpRaw r₁ = fpRaw r₂ := hfp
    exact h4 ((seg4_inj _ _ _ _ _ _ _ _ h').2.2.2 h1 h2 (by rw [h3]))

/-- Concrete record matching the spec's fingerprint example: path
`/a/b.py`, rule `sql-injection`, 1-based line 11 (0-based 10). -/
def rFpA : Raw :=
  { path := some (str "/a/b.py"), check_id := some (str "sql-injection"),
    startLine := some 11, extraMessage := some (str "possible sql injection") }

/-- Same four fingerprint inputs as `rFpA`, other fields changed. -/
def rFpA' : Raw :=
  { path := some (str "/a/b.py"), check_id := some (str "sql-injection"),
    startLine := some 11, extraMessage := some (str "possible sql injection"),
    severity := some (str "HIGH"), endLine := some 99, startCol := some 7 }

/-- Same as `rFpA` except the start line moved from 11 to 12. -/
def rFpLine : Raw :=
  { path := some (str "/a/b.py"), check_id := some (str "sql-injection"),
    startLine := some 12, extraMessage := some (str "possible sql injection") }

theorem fingerprint_pure_function_of_four_witness :
    (fromSemgrep [] rFpA).fingerprint = (fromSemgrep [] rFpA').fingerprint ∧
    (fromSemgrep [] rFpA).fingerprint ≠ (fromSemgrep [] rFpLine).fingerprint :=
  ⟨fingerprint_pure_function_of_four.1 [] [] rFpA rFpA'
      (by decide) (by decide) (by decide) (by decide),
   fingerprint_pure_function_of_four.2.2.2.1 [] [] rFpA rFpLine
      (by decide) (by decide) (by decide) (by decide)⟩

/-- C3 (amended): ranges are converted from the tool's 1-based convention
to 0-based by subtracting 1 from start line, start col, end line and end
col; when the end field is missing, the resulting end line equals the
0-based start line itself (the raw default `start.line + 1` is one past the
0-based start line, and the subsequent `- 1` lands back on it). -/
theorem range_zero_based_conversion :
    (∀ (root : List Char) (r : Raw) (l c l' c' : Int),
        r.startLine = some l → r.startCol = some c →
        r.endLine = some l' → r.endCol = some c' →
        (fromSemgrep root r).range = ⟨⟨l - 1, c - 1⟩, ⟨l' - 1, c' - 1⟩⟩) ∧
    (∀ (root : List Char) (r : Raw),
        r.endLine = none → r.extraEndLine = none →
        (fromSemgrep root r).range.endP.line = (fromSemgrep root r).range.start.line) := by
  constructor
  · intro root r l c l' c' hl hc hl' hc'
    simp [fromSemgrep, startLine0, startCol0, endLine0, endCol0, jsNN, hl, hc, hl', hc']
  · intro root r he he'
    simp [fromSemgrep, endLine0, jsNN, he, he']

/-- Raw record whose end range is absent (start at 1-based line 5). -/
def rawMissingEnd : Raw := { startLine := some 5, startCol := some 2 }

/-- C3 counterexample: for a record with a missing end field the claim
predicts an end line one past the 0-based start line; the code instead
produces an end line equal to the 0-based start line (here start 4, end 4,
not 5). -/
theorem range_default_end_counterexample :
    ¬ ((fromSemgrep [] rawMissingEnd).range.endP.line
        = (fromSemgrep [] rawMissingEnd).range.start.line + 1) := by
  decide

/-- Raw record carrying a complete 1-based range. -/
def rawFullRange : Raw :=
  { startLine := some 10, startCol := some 3, endLine := some 12, endCol := some 7 }

theorem range_zero_based_conversion_witness :
    (fromSemgrep [] rawFullRange).range = ⟨⟨9, 2⟩, ⟨11, 6⟩⟩ ∧
    (fromSemgrep [] rawMissingEnd).range.endP.line
      = (fromSemgrep [] rawMissingEnd).range.start.line :=
  ⟨range_zero_based_conversion.1 [] rawFullRange 10 3 12 7 rfl rfl rfl rfl,
   range_zero_based_conversion.2 [] rawMissingEnd rfl rfl⟩

/-- C5: severity normalization lower-cases the raw label and matches it
leniently: a label containing "crit" maps to critical; otherwise a label
starting with "h" to high, with "m" to medium, with "l" to low; every
other label (including the empty label that stands in for a missing one)
maps to info. -/
theorem mapSeverity_lenient_matching :
    (∀ s : List Char,
      (containsSub (str "crit") (lowerTxt s) = true → mapSeverity s = .critical) ∧
      (containsSub (str "crit") (lowerTxt s) = false →
        (str "h").isPrefixOf (lowerTxt s) = true → mapSeverity s = .high) ∧
      (containsSub (str "crit") (lowerTxt s) = false →
        (str "h").isPrefixOf (lowerTxt s) = false →
        (str "m").isPrefixOf (lowerTxt s) = true → mapSeverity s = .medium) ∧
      (containsSub (str "crit") (lowerTxt s) = false →
        (str "h").isPrefixOf (lowerTxt s) = false →
        (str "m").isPrefixOf (lowerTxt s) = false →
        (str "l").isPrefixOf (lowerTxt s) = true → mapSeverity s = .low) ∧
      (containsSub (str "crit") (lowerTxt s) = false →
        (str "h").isPrefixOf (lowerTxt s) = false →
        (str "m").isPrefixOf (lowerTxt s) = false →
        (str "l").isPrefixOf (lowerTxt s) = false → mapSeverity s = .info)) ∧
    mapSeverity (str "") = .info := by
  constructor
  · intro s
    refine ⟨?_, ?_, ?_, ?_, ?_⟩ <;> intros <;> simp_all [mapSeverity]
  · decide

theorem mapSeverity_lenient_matching_witness :
    mapSeverity (str "CRITICAL") = .critical ∧
    mapSeverity (str "High") = .high ∧
    mapSeverity (str "Medium") = .medium ∧
    mapSeverity (str "LOW") = .low ∧
    mapSeverity (str "WARNING") = .info ∧
    mapSeverity (str "") = .info :=
  ⟨(mapSeverity_lenient_matching.1 (str "CRITICAL")).1 (by decide),
   (mapSeverity_lenient_matching.1 (str "High")).2.1 (by decide) (by decide),
   (mapSeverity_lenient_matching.1 (str "Medium")).2.2.1 (by decide) (by decide) (by decide),
   (mapSeverity_lenient_matching.1 (str "LOW")).2.2.2.1 (by decide) (by decide) (by decide)
      (by decide),
   (mapSeverity_lenient_matching.1 (str "WARNING")).2.2.2.2 (by decide) (by decide) (by decide)
      (by decide),
   mapSeverity_lenient_matching.2⟩

/-- Kind of a body line inside a diff hunk (`' ' | '+' | '-'`). -/
inductive HKind
  | ctx
  | add
  | rem
deriving DecidableEq, Repr

/-- One body line of a hunk: its kind and its text with the marker stripped. -/
structure HunkLine where
  kind : HKind
  txt : List Char
deriving DecidableEq, Repr

/-- A unified-diff hunk as produced by `extractHunks` in `src/report.ts`. -/
structure Hunk where
  oldStart : Nat
  oldLines : Nat
  newStart : Nat
  newLines : Nat
  lines : List HunkLine
deriving DecidableEq, Repr

/-- JS `s.split('\n')` (always at least one piece). -/
def splitNl : List Char → List (List Char)
  | [] => [[]]
  | c :: rest =>
    if c = '\n' then [] :: splitNl rest
    else
      match splitNl rest with
      | l :: ls => (c :: l) :: ls
      | [] => [[c]]

/-- JS `lines.join('\n')`. -/
def joinNl : List (List Char) → List Char
  | [] => []
  | [l] => l
  | l :: ls => l ++ '\n' :: joinNl ls

/-- JS `s.trim()` (ASCII whitespace at both ends). -/
def trimTxt (s : List Char) : List Char :=
  ((s.dropWhile Char.isWhitespace).reverse.dropWhile Char.isWhitespace).reverse

/-- Drop an expected literal from the head of the input, or fail. -/
def dropPre (p s : List Char) : Option (List Char) :=
  if p.isPrefixOf s then some (s.drop p.length) else none

/-- Parse `(\d+),?(\d+)?` at the head of the input: a non-empty digit run,
an optional comma, an optional second digit run; yields the first value,
the optional second value and the remaining input. -/
def parseNumPair (cs : List Char) : Option (Nat × Option Nat × List Char) :=
  let d1 := cs.takeWhile Char.isDigit
  let r1 := cs.dropWhile Char.isDigit
  if d1 = [] then none
  else
    match r1 with
    | ',' :: r2 =>
      let d2 := r2.takeWhile Char.isDigit
      let r3 := r2.dropWhile Char.isDigit
      if d2 = [] then some (digitsVal d1, none, r3)
      else some (digitsVal d1, some (digitsVal d2), r3)
    | _ => some (digitsVal d1, none, r1)

/-- The hunk-header regex `^@@ -(\d+),?(\d+)? \+(\d+),?(\d+)? @@` of
`extractHunks`, with the missing-count default `parseInt(m[i]||'1')`
applied; yields `(oldStart, oldLines, newStart, newLines)`. -/
def parseHunkHeader (line : List Char) : Option (Nat × Nat × Nat × Nat) :=
  match dropPre (str "@@ -") line with
  | none => none
  | some r0 =>
    match parseNumPair r0 with
    | none => none
    | some (o1, oc, r1) =>
      match dropPre (str " +") r1 with
      | none => none
      | some r2 =>
        match parseNumPair r2 with
        | none => none
        | some (n1, nc, r3) =>
          match dropPre (str " @@") r3 with
          | none => none
          | some _ => some (o1, oc.getD 1, n1, nc.getD 1)

/-- Classify one hunk-body line (`lines[i][0]`): a leading '+', '-' or ' '
becomes a hunk line with the marker stripped; anything else is skipped. -/
def bodyLine (l : List Char) : Option HunkLine :=
  match l with
  | '+' :: t => some ⟨.add, t⟩
  | '-' :: t => some ⟨.rem, t⟩
  | ' ' :: t => some ⟨.ctx, t⟩
  | _ => none

/-- Does this line start a hunk header (`lines[i].startsWith('@@')`)? -/
def isHeaderStart (s : List Char) : Bool := (str "@@").isPrefixOf s

/-- Worker for `extractHunks`: scan the split lines; a line matching the
header regex opens a hunk whose body runs until the next line starting with
`@@`.  The fuel argument only makes the recursion structural; each step
consumes at least the header line, so the initial fuel (the number of
lines) always suffices. -/
def extractHunksGo : Nat → List (List Char) → List Hunk
  | 0, _ => []
  | _, [] => []
  | fuel + 1, l :: rest =>
    match parseHunkHeader l with
    | none => extractHunksGo fuel rest
    | some (o1, oc, n1, nc) =>
      let body := rest.takeWhile (fun s => !(isHeaderStart s))
      let rest' := rest.dropWhile (fun s => !(isHeaderStart s))
      ⟨o1, oc, n1, nc, body.filterMap bodyLine⟩ :: extractHunksGo fuel rest'

/-- `extractHunks` from `src/report.ts`. -/
def extractHunks (diff : List Char) : List Hunk :=
  extractHunksGo (splitNl diff).length (splitNl diff)

/-- One iteration of the positional hunk loop of `tryApplyUnifiedDiff`,
acting on the current document lines and the running offset.  `none` covers
every way the iteration makes the function return false: a `doc.lineAt`
argument out of range (the thrown error is caught by the outer `try`), the
reversed zero-length range whose text is the bare newline, and the
empty/whitespace-only target block. -/
def applyHunkStep (doc : List (List Char)) (offset : Int) (h : Hunk) :
    Option (List (List Char) × Int) :=
  let start : Int := (h.oldStart : Int) - 1 + offset
  let endE : Int := start + (h.oldLines : Int)
  let s : Nat := start.toNat
  if s ≥ doc.length then none
  else if endE - 1 < 0 then none
  else
    let e1 : Nat := min (doc.length - 1) (endE - 1).toNat
    if e1 < s then none
    else
      let oldBlock := joinNl ((doc.drop s).take (e1 + 1 - s))
      if trimTxt oldBlock = [] then none
      else
        let newBlock := joinNl ((h.lines.filter (fun l => l.kind ≠ HKind.rem)).map (·.txt))
        some (doc.take s ++ splitNl newBlock ++ doc.drop (e1 + 1),
              offset + ((h.newLines : Int) - (h.oldLines : Int)))

/-- The positional loop of `tryApplyUnifiedDiff`: hunks in order, offset
starting at 0; on failure the returned document keeps the edits of the
hunks already applied, because the code edits the live document one hunk at
a time. -/
def applyHunksLoop : List (List Char) → Int → List Hunk → Bool × List (List Char)
  | doc, _, [] => (true, doc)
  | doc, off, h :: t =>
    match applyHunkStep doc off h with
    | none => (false, doc)
    | some (doc', off') => applyHunksLoop doc' off' t

/-- Scan for an occurrence of `needle` at a line start (regex `^needle`
with the multiline flag); yields the rest of the input after the match. -/
def scanLineStart (needle : List Char) (atStart : Bool) : List Char → Option (List Char)
  | [] => if atStart && needle.isPrefixOf [] then some [] else none
  | c :: t =>
    if atStart && needle.isPrefixOf (c :: t) then some ((c :: t).drop needle.length)
    else scanLineStart needle (c = '\n') t

/-- First plain occurrence of `needle`; yields the rest after the match. -/
def findSub (needle : List Char) : List Char → Option (List Char)
  | [] => if needle.isPrefixOf [] then some [] else none
  | c :: t =>
    if needle.isPrefixOf (c :: t) then some ((c :: t).drop needle.length)
    else findSub needle t

/-- The fast-path gate `/^---[\s\S]*?\n\+\+\+[\s\S]*?@@/m.test(diff)`:
some line starts with `---`, later followed by a line starting with `+++`,
later followed by `@@`. -/
def hasDiffFileHeader (diff : List Char) : Bool :=
  match scanLineStart (str "---") true diff with
  | none => false
  | some r1 =>
    match findSub (str "\n+++") r1 with
    | none => false
    | some r2 => (findSub (str "@@") r2).isSome

/-- JS `text.replace(original, added)` for plain strings: replace the first
occurrence, unchanged when none (the `$`-pattern substitutions of JS do not
occur in these inputs). -/
def replaceFirst (needle repl : List Char) : List Char → List Char
  | [] => if needle.isPrefixOf [] then repl else []
  | c :: t =>
    if needle.isPrefixOf (c :: t) then repl ++ (c :: t).drop needle.length
    else c :: replaceFirst needle repl t

/-- The single-hunk fast path of `tryApplyUnifiedDiff`: when a snippet is
given and the diff carries a `---`/`+++` file header, a single extracted
hunk whose removed-plus-context block occurs (trimmed) in the snippet or in
the live text is applied by one whole-text substring replacement; `some`
carries the replaced text, `none` means the fast path fell through to the
positional loop. -/
def fastPathResult (text diff : List Char) (snippet : Option (List Char)) :
    Option (List Char) :=
  match snippet with
  | none => none
  | some snip =>
    if snip ≠ [] ∧ hasDiffFileHeader diff = true then
      match extractHunks diff with
      | [h] =>
        let original := joinNl ((h.lines.filter (fun l => l.kind ≠ HKind.add)).map (·.txt))
        let added := joinNl ((h.lines.filter (fun l => l.kind ≠ HKind.rem)).map (·.txt))
        if containsSub (trimTxt original) snip || containsSub (trimTxt original) text then
          let newText := replaceFirst original added text
          if newText ≠ text then some newText else none
        else none
      | _ => none
    else none

/-- Outcome of `tryApplyUnifiedDiff`: the returned boolean, the final
content of the live document, and the persisted on-disk content
(`doc.save()` runs only on the success paths). -/
structure ApplyOutcome where
  ok : Bool
  docText : List Char
  savedText : List Char
deriving DecidableEq, Repr

/-- `tryApplyUnifiedDiff(file, diff, snippet)` from `src/report.ts`,
modelled on contents: `text` is both the opened document's and the on-disk
content on entry; `vscode.workspace.applyEdit` is modelled as succeeding. -/
def tryApplyUnifiedDiff (text diff : List Char) (snippet : Option (List Char)) :
    ApplyOutcome :=
  match fastPathResult text diff snippet with
  | some newText => ⟨true, newText, newText⟩
  | none =>
    match applyHunksLoop (splitNl text) 0 (extractHunks diff) with
    | (true, d) => ⟨true, joinNl d, joinNl d⟩
    | (false, d) => ⟨false, joinNl d, text⟩

/-- The example diff of the patch round-trip property:
`@@ -2,2 +2,1 @@` removing `L2`, `L3` and adding `L2X`. -/
def diffExample : List Char := str "@@ -2,2 +2,1 @@\n-L2\n-L3\n+L2X"

/-- Two-hunk diff whose second hunk targets a whitespace-only block. -/
def diffTwoHunks : List Char := str "@@ -1,1 +1,1 @@\n-A\n+X\n@@ -3,1 +3,1 @@\n- \n+Y"

/-- C4: each iteration of the positional loop replaces the line range
`[oldStart - 1 + offset, oldStart - 1 + offset + oldLineCount)` of the
current text by the concatenation of the hunk's non-removed lines and then
advances the offset by `newLineCount - oldLineCount`, rejecting when the
extracted block is whitespace-only (`s` names the in-range 0-based start
of the target block); and applying the diff `@@ -2,2 +2,1 @@ -L2 -L3 +L2X`
to `L1\nL2\nL3\nL4\nL5` succeeds with `L1\nL2X\nL4\nL5`. -/
theorem positional_patch_application :
    (∀ (doc : List (List Char)) (offset : Int) (h : Hunk) (s : Nat),
        (h.oldStart : Int) - 1 + offset = (s : Int) →
        s + h.oldLines ≤ doc.length → 1 ≤ h.oldLines →
        (trimTxt (joinNl ((doc.drop s).take h.oldLines)) = [] →
            applyHunkStep doc offset h = none) ∧
        (trimTxt (joinNl ((doc.drop s).take h.oldLines)) ≠ [] →
            applyHunkStep doc offset h =
              some (doc.take s
                      ++ splitNl (joinNl ((h.lines.filter
                            (fun l => l.kind ≠ HKind.rem)).map (·.txt)))
                      ++ doc.drop (s + h.oldLines),
                    offset + ((h.newLines : Int) - (h.oldLines : Int))))) ∧
    (tryApplyUnifiedDiff (str "L1\nL2\nL3\nL4\nL5") diffExample none)
      = ⟨true, str "L1\nL2X\nL4\nL5", str "L1\nL2X\nL4\nL5"⟩ := by
  constructor
  · intro doc offset h s hs hlen hold
    simp only [applyHunkStep]
    rw [hs]
    have h0 : ((s : Int)).toNat = s := Int.toNat_natCast s
    rw [h0]
    rw [if_neg (by omega)]
    rw [if_neg (by omega : ¬ ((s : Int) + (h.oldLines : Int) - 1 < 0))]
    have he1 : ((s : Int) + (h.oldLines : Int) - 1).toNat = s + h.oldLines - 1 := by omega
    rw [he1]
    have hmin : min (doc.length - 1) (s + h.oldLines - 1) = s + h.oldLines - 1 := by omega
    rw [hmin]
    rw [if_neg (by omega : ¬ (s + h.oldLines - 1 < s))]
    have htake : s + h.oldLines - 1 + 1 - s = h.oldLines := by omega
    have hdrop : s + h.oldLines - 1 + 1 = s + h.oldLines := by omega
    rw [htake, hdrop]
    constructor
    · intro htrim
      rw [if_pos htrim]
    · intro htrim
      rw [if_neg htrim]
  · decide

theorem positional_patch_application_witness :
    applyHunkStep [str "L1", str "L2", str "L3", str "L4", str "L5"] 0
        ⟨2, 2, 2, 1, [⟨.rem, str "L2"⟩, ⟨.rem, str "L3"⟩, ⟨.add, str "L2X"⟩]⟩
      = some ([str "L1", str "L2X", str "L4", str "L5"], -1) := by
  have h := (positional_patch_application.1
      [str "L1", str "L2", str "L3", str "L4", str "L5"] 0
      ⟨2, 2, 2, 1, [⟨.rem, str "L2"⟩, ⟨.rem, str "L3"⟩, ⟨.add, str "L2X"⟩]⟩ 1
      (by decide) (by decide) (by decide)).2 (by decide)
  rw [h]
  decide

/-- C2 (amended): patch application is atomic with respect to the
persisted file content: when the function reports failure nothing was
saved and the on-disk content is exactly the original, and when it reports
success the full new text is persisted.  The live document, however, is
edited one hunk at a time, so on a later hunk's failure it retains the
earlier hunks' edits (see the counterexample). -/
theorem patch_persistence_atomicity :
    ∀ (text diff : List Char) (snippet : Option (List Char)),
      ((tryApplyUnifiedDiff text diff snippet).ok = false →
        (tryApplyUnifiedDiff text diff snippet).savedText = text) ∧
      ((tryApplyUnifiedDiff text diff snippet).ok = true →
        (tryApplyUnifiedDiff text diff snippet).savedText
          = (tryApplyUnifiedDiff text diff snippet).docText) := by
  intro text diff snippet
  unfold tryApplyUnifiedDiff
  cases fastPathResult text diff snippet with
  | some t => exact ⟨fun hc => by simp at hc, fun _ => rfl⟩
  | none =>
    rcases happly : applyHunksLoop (splitNl text) 0 (extractHunks diff) with ⟨ok, d⟩
    cases ok with
    | true => exact ⟨fun hc => by simp at hc, fun _ => rfl⟩
    | false => exact ⟨fun _ => rfl, fun hc => by simp at hc⟩

theorem patch_persistence_atomicity_witness :
    (tryApplyUnifiedDiff (str "A\nB\n \nD") diffTwoHunks none).savedText
        = str "A\nB\n \nD" ∧
    (tryApplyUnifiedDiff (str "L1\nL2\nL3\nL4\nL5") diffExample none).savedText
        = (tryApplyUnifiedDiff (str "L1\nL2\nL3\nL4\nL5") diffExample none).docText :=
  ⟨(patch_persistence_atomicity (str "A\nB\n \nD") diffTwoHunks none).1 (by decide),
   (patch_persistence_atomicity (str "L1\nL2\nL3\nL4\nL5") diffExample none).2 (by decide)⟩

/-- C2 counterexample: on the text `A\nB\n \nD` with a two-hunk diff whose
second hunk targets the whitespace-only third line, the first hunk is
applied to the live document and then the second is rejected: the function
returns false, yet the document content is no longer the original (only
the on-disk content is). -/
theorem patch_atomicity_counterexample :
    (tryApplyUnifiedDiff (str "A\nB\n \nD") diffTwoHunks none).ok = false ∧
    (tryApplyUnifiedDiff (str "A\nB\n \nD") diffTwoHunks none).docText
      ≠ str "A\nB\n \nD" := by
  decide

/-- A directory entry of the file system seen by the recursive
`fsp.readdir` walk of `enumerateFiles` in `src/extension.ts`. -/
inductive FS
  | file (name : String)
  | dir (name : String) (children : List FS)
deriving Repr

mutual

/-- The `walk` closure of `enumerateFiles`: traverse the entries of the
current directory in order; paths are component lists.  The cancellation
token is modelled as never requested, and `readdir` errors do not arise on
the tree given as data. -/
def walkFS (skip : List (List String)) : List String → List FS → List (List String)
  | _, [] => []
  | cur, ent :: rest => walkEntry skip cur ent ++ walkFS skip cur rest

/-- Handling of one `readdir` entry in `walk`: a directory whose resolved
path is in `skipWithinRoot` is skipped entirely (`continue`), any other
directory is descended into, a file is collected. -/
def walkEntry (skip : List (List String)) (cur : List String) : FS → List (List String)
  | .file n => [cur ++ [n]]
  | .dir n ch => if (cur ++ [n]) ∈ skip then [] else walkFS skip (cur ++ [n]) ch

end

/-- `enumerateFiles(root, excludes, token)` of `src/extension.ts` over an
explicit directory tree; `skipWithinRoot` is
`new Set(excludes.map(e => path.resolve(root, e)))`, modelled on component
lists where `path.resolve(root, e)` of a relative exclude is `root ++ e`. -/
def enumerateFiles (root : List String) (excludes : List (List String))
    (tree : List FS) : List (List String) :=
  walkFS (excludes.map (fun e => root ++ e)) root tree

/-- `defaultExcludes()` from `src/extension.ts`. -/
def defaultExcludes : List (List String) :=
  [["node_modules"], ["vendor"], ["tmp"], ["log"], ["public"], ["storage"],
   ["dist"], ["build"], ["coverage"], [".git"]]

/-- The example tree of the enumeration property: `root/keep/a.py` and
`root/node_modules/skip.py`. -/
def exampleTree : List FS :=
  [FS.dir "keep" [FS.file "a.py"], FS.dir "node_modules" [FS.file "skip.py"]]

theorem walkFS_extends (skip : List (List String)) :
    ∀ cur tree, ∀ f ∈ walkFS skip cur tree, ∃ t, t ≠ [] ∧ f = cur ++ t := by
  refine walkFS.induct skip
    (fun cur tree => ∀ f ∈ walkFS skip cur tree, ∃ t, t ≠ [] ∧ f = cur ++ t)
    (fun cur ent => ∀ f ∈ walkEntry skip cur ent, ∃ t, t ≠ [] ∧ f = cur ++ t)
    ?_ ?_ ?_ ?_ ?_
  · intro cur n f hf
    simp only [walkEntry, List.mem_singleton] at hf
    exact ⟨[n], by simp, by simp [hf]⟩
  · intro cur n ch hskip f hf
    simp [walkEntry, hskip] at hf
  · intro cur n ch hskip ih f hf
    simp only [walkEntry, if_neg hskip] at hf
    obtain ⟨t, ht, rfl⟩ := ih f hf
    exact ⟨[n] ++ t, by simp, by simp⟩
  · intro cur f hf
    simp [walkFS] at hf
  · intro cur ent rest ih1 ih2 f hf
    simp only [walkFS, List.mem_append] at hf
    rcases hf with h | h
    · exact ih1 f h
    · exact ih2 f h

theorem walkFS_pruning (skip : List (List String)) :
    ∀ cur tree, ∀ f ∈ walkFS skip cur tree, ∀ p ∈ skip,
      cur <+: p → cur ≠ p → ¬ (p <+: f ∧ p ≠ f) := by
  refine walkFS.induct skip
    (fun cur tree => ∀ f ∈ walkFS skip cur tree, ∀ p ∈ skip,
      cur <+: p → cur ≠ p → ¬ (p <+: f ∧ p ≠ f))
    (fun cur ent => ∀ f ∈ walkEntry skip cur ent, ∀ p ∈ skip,
      cur <+: p → cur ≠ p → ¬ (p <+: f ∧ p ≠ f))
    ?_ ?_ ?_ ?_ ?_
  · intro cur n f hf p hp hcp hne
    simp only [walkEntry, List.mem_singleton] at hf
    subst hf
    rintro ⟨hpf, hpne⟩
    have h1 := hcp.length_le
    have h2 := hpf.length_le
    simp only [List.length_append, List.length_singleton] at h2
    have hl : p.length = cur.length ∨ p.length = cur.length + 1 := by omega
    rcases hl with hl | hl
    · exact hne (hcp.eq_of_length hl.symm)
    · exact hpne (hpf.eq_of_length (by simp [hl]))
  · intro cur n ch hskip f hf p hp hcp hne
    simp [walkEntry, hskip] at hf
  · intro cur n ch hskip ih f hf p hp hcp hne
    simp only [walkEntry, if_neg hskip] at hf
    rintro ⟨hpf, hpne⟩
    obtain ⟨t, ht, rfl⟩ := walkFS_extends skip (cur ++ [n]) ch f hf
    have h1 := hcp.length_le
    have hcn : (cur ++ [n]) <+: ((cur ++ [n]) ++ t) := List.prefix_append _ _
    by_cases hl : p.length ≤ cur.length + 1
    · have hl2 : p.length = cur.length ∨ p.length = cur.length + 1 := by omega
      rcases hl2 with hl2 | hl2
      · exact hne (hcp.eq_of_length hl2.symm)
      · have hpeq : p = cur ++ [n] := by
          have hpre := List.prefix_of_prefix_length_le hpf hcn
            (by simp only [List.length_append, List.length_singleton]; omega)
          exact hpre.eq_of_length (by simp [hl2])
        exact hskip (hpeq ▸ hp)
    · have hcp' : (cur ++ [n]) <+: p := List.prefix_of_prefix_length_le hcn hpf
        (by simp only [List.length_append, List.length_singleton]; omega)
      have hne' : cur ++ [n] ≠ p := by
        intro he
        rw [← he] at hl
        simp at hl
      exact ih _ hf p hp hcp' hne' ⟨hpf, hpne⟩
  · intro cur f hf
    simp [walkFS] at hf
  · intro cur ent rest ih1 ih2 f hf p hp hcp hne
    simp only [walkFS, List.mem_append] at hf
    rcases hf with h | h
    · exact ih1 f h p hp hcp hne
    · exact ih2 f h p hp hcp hne

/-- C8: enumeration prunes excluded directories entirely — no enumerated
file lies strictly below a directory whose resolved path (`root ++ e`)
matches an exclude entry, at any depth of the walk — and on the tree with
`root/keep/a.py` and `root/node_modules/skip.py` the default excludes
yield exactly `[root/keep/a.py]`. -/
theorem enumeration_excludes_pruning :
    (∀ (root : List String) (excludes : List (List String)) (tree : List FS)
        (f e : List String),
        f ∈ enumerateFiles root excludes tree → e ∈ excludes → e ≠ [] →
        ¬ ((root ++ e) <+: f ∧ root ++ e ≠ f)) ∧
    enumerateFiles ["root"] defaultExcludes exampleTree = [["root", "keep", "a.py"]] := by
  constructor
  · intro root excludes tree f e hf he hne
    refine walkFS_pruning _ root tree f hf (root ++ e) ?_ ?_ ?_
    · exact List.mem_map.mpr ⟨e, he, rfl⟩
    · exact List.prefix_append _ _
    · intro hc
      apply hne
      have := congrArg List.length hc
      simp at this
      exact this
  · decide

theorem enumeration_excludes_pruning_witness :
    ¬ ((["root", "node_modules"] : List String) <+: ["root", "keep", "a.py"] ∧
        (["root", "node_modules"] : List String) ≠ ["root", "keep", "a.py"]) :=
  enumeration_excludes_pruning.1 ["root"] defaultExcludes exampleTree
    ["root", "keep", "a.py"] ["node_modules"] (by decide) (by decide) (by decide)

/-- Worker for the `sec.scan` batch loop of `src/extension.ts`
(`for (let i = 0; i < total; i += batchSize)`): `run` is the oracle for one
`runSemgrepOnFiles` call on a batch, `cancelledAt b` the value of
`token.isCancellationRequested` observed at the check before batch `b`
(0-based), `b` the index of the next batch.  Returns the accumulated raw
records (`findingsRaw`) together with the indices of the batches actually
invoked.  The fuel argument makes the recursion structural; each iteration
consumes at least one file, so fuel equal to the number of files always
suffices.  The `max 1` guard is unreachable for the source's batch sizes,
which are clamped by `Math.max(10, ...)` before the loop. -/
def scanLoopGo (bs : Nat) (run : List α → List β) (cancelledAt : Nat → Bool) :
    Nat → List α → Nat → List β × List Nat
  | 0, _, _ => ([], [])
  | fuel + 1, files, b =>
    if files.isEmpty then ([], [])
    else if cancelledAt b then ([], [])
    else
      let pr := scanLoopGo bs run cancelledAt fuel (files.drop (max 1 bs)) (b + 1)
      (run (files.take (max 1 bs)) ++ pr.1, b :: pr.2)

/-- The `sec.scan` batch loop, started at batch index 0 with empty
accumulator. -/
def scanLoop (bs : Nat) (run : List α → List β) (cancelledAt : Nat → Bool)
    (files : List α) : List β × List Nat :=
  scanLoopGo bs run cancelledAt files.length files 0

/-- The contiguous batches `targetFiles.slice(i, i + batchSize)` of the
loop, in order (same fuel pattern as `scanLoopGo`). -/
def chunksGo (bs : Nat) : Nat → List α → List (List α)
  | 0, _ => []
  | fuel + 1, files =>
    if files.isEmpty then []
    else files.take (max 1 bs) :: chunksGo bs fuel (files.drop (max 1 bs))

/-- All batches of a file list. -/
def chunks (bs : Nat) (files : List α) : List (List α) :=
  chunksGo bs files.length files

/-- Number of batches the loop runs before the first observed cancellation
(all of them when cancellation is never observed). -/
def stopAt (cancelledAt : Nat → Bool) (nBatches : Nat) : Nat :=
  ((List.range nBatches).takeWhile (fun b => !(cancelledAt b))).length

theorem scanLoopGo_spec (bs : Nat) (run : List α → List β) (c : Nat → Bool) :
    ∀ (fuel : Nat) (files : List α) (b : Nat),
      scanLoopGo bs run c fuel files b
        = (((((chunksGo bs fuel files).take
              (((List.range' b (chunksGo bs fuel files).length).takeWhile
                  (fun i => !(c i))).length)).map run).flatten),
           List.range' b (((List.range' b (chunksGo bs fuel files).length).takeWhile
              (fun i => !(c i))).length)) := by
  intro fuel
  induction fuel with
  | zero =>
    intro files b
    simp [scanLoopGo, chunksGo, List.range']
  | succ fuel ih =>
    intro files b
    by_cases hemp : files.isEmpty
    · simp [scanLoopGo, chunksGo, hemp, List.range']
    · by_cases hc : c b
      · simp [scanLoopGo, chunksGo, hemp, hc, List.range', List.takeWhile_cons]
      · rw [scanLoopGo, if_neg (by simp [hemp]), if_neg (by simp [hc])]
        rw [chunksGo, if_neg (by simp [hemp])]
        simp only [List.length_cons, List.range', List.takeWhile_cons, hc,
          Bool.not_false, if_true, List.take_succ_cons, List.map_cons,
          List.flatten_cons, ih]

/-- C7: the cancellation token is consulted before each batch; the loop
runs exactly the batches before the first observed cancellation, never
starts a later batch, and returns the concatenated raw records of the
completed batches (nothing discarded); in the concrete 5-batch scenario
with cancellation observed from batch index 2 on, the result is exactly
the records of batches 0 and 1 and only those two batches are invoked. -/
theorem scan_cancellation_partial_result :
    (∀ (α β : Type) (bs : Nat) (run : List α → List β) (c : Nat → Bool)
        (files : List α),
        scanLoop bs run c files
          = ((((chunks bs files).take (stopAt c (chunks bs files).length)).map run).flatten,
             List.range (stopAt c (chunks bs files).length))) ∧
    scanLoop 10 (fun l => l) (fun b => decide (2 ≤ b)) (List.range 50)
      = (List.range 20, [0, 1]) := by
  constructor
  · intro α β bs run c files
    rw [scanLoop, scanLoopGo_spec]
    simp [chunks, stopAt, List.range_eq_range']
  · decide

/-- One external `execFile` invocation: command and arguments. -/
structure Cmd where
  cmd : List Char
  args : List (List Char)
deriving DecidableEq, Repr

/-- The candidate binary locations of `resolveSemgrepBin`
(`src/scanners/semgrep.ts`): the bare name on the search path, then the
two well-known install directories under the home directory. -/
def candidateSemgrepBins (home : List Char) : List (List Char) :=
  [str "semgrep", home ++ str "/.local/bin/semgrep",
   home ++ str "/.local/share/pipx/venvs/semgrep/bin/semgrep"]

/-- Probe loop of `resolveSemgrepBin`: try `execFileAsync(c, ['--version'])`
on each candidate in order and return the first that succeeds; `exec` is
the oracle for process execution (`some stdout` on success, `none` for a
rejection).  Also returns the trace of processes launched. -/
def resolveGo (exec : Cmd → Option (List Char)) :
    List (List Char) → Option (List Char) × List Cmd
  | [] => (none, [])
  | c :: rest =>
    match exec ⟨c, [str "--version"]⟩ with
    | some _ => (some c, [⟨c, [str "--version"]⟩])
    | none =>
      let pr := resolveGo exec rest
      (pr.1, ⟨c, [str "--version"]⟩ :: pr.2)

/-- `resolveSemgrepBin()` from `src/scanners/semgrep.ts`; `none` models
the thrown `Semgrep no encontrado` error. -/
def resolveSemgrepBin (exec : Cmd → Option (List Char)) (home : List Char) :
    Option (List Char) × List Cmd :=
  resolveGo exec (candidateSemgrepBins home)

/-- The scanner argument list built by `runSemgrepOnFiles`:
`--json --quiet --timeout=<t> --metrics=off`, one `--config c` pair per
rule-set, then the files. -/
def semgrepArgs (files configs : List (List Char)) (timeoutSec : Int) :
    List (List Char) :=
  [str "--json", str "--quiet", str "--timeout=" ++ intStr timeoutSec,
   str "--metrics=off"]
    ++ configs.flatMap (fun c => [str "--config", c]) ++ files

/-- `runSemgrepOnFiles(files, configs, opts)` from `src/scanners/semgrep.ts`:
an empty file list returns `[]` at once; otherwise the binary is resolved,
the command line is built with `Math.max(10, opts.timeoutSec ?? 60)` as
timeout, one scanner process runs and its stdout is parsed (`parse` models
`JSON.parse` plus the `results` extraction; it never runs on the empty
branch).  Returns the result (`none` models a thrown error) and the trace
of external processes launched, probes included. -/
def runSemgrepOnFiles (exec : Cmd → Option (List Char))
    (parse : List Char → List Raw) (home : List Char)
    (files configs : List (List Char)) (timeoutSec : Int) :
    Option (List Raw) × List Cmd :=
  if files.isEmpty then (some [], [])
  else
    match resolveSemgrepBin exec home with
    | (none, tr) => (none, tr)
    | (some bin, tr) =>
      let args := semgrepArgs files configs (max 10 timeoutSec)
      match exec ⟨bin, args⟩ with
      | none => (none, tr ++ [⟨bin, args⟩])
      | some out => (some (parse out), tr ++ [⟨bin, args⟩])

/-- C10: on the empty file list the scanner invocation returns the empty
result list immediately, with an empty process trace: no version probe (so
no binary resolution) and no scanner process. -/
theorem runSemgrepOnFiles_empty_no_process :
    ∀ (exec : Cmd → Option (List Char)) (parse : List Char → List Raw)
      (home : List Char) (configs : List (List Char)) (timeoutSec : Int),
      runSemgrepOnFiles exec parse home [] configs timeoutSec = (some [], []) := by
  intro exec parse home configs timeoutSec
  rfl

/-- The enrichment payload fields read back by the `sec.scan` loop
(`enriched?.explanation_md`, `enriched?.fix?.unified_diff`,
`enriched?.cwe`, `enriched?.owasp`), each optional as in the parsed JSON. -/
structure Enriched where
  explanation_md : Option (List Char)
  fix_unified_diff : Option (List Char)
  cwe : Option (List Char)
  owasp : Option (List Char)
deriving DecidableEq, Repr

/-- `UIItem` as built by `toUIItem` in `src/extension.ts`. -/
structure UIItem where
  fingerprint : List Char
  ruleId : List Char
  severity : Sev
  file : List Char
  relFile : List Char
  range : RangeLC
  message : List Char
  cwe : Option (List Char)
  owasp : Option (List Char)
  snippet : Option (List Char)
  explanation_md : List Char
  unified_diff : Option (List Char)
deriving DecidableEq, Repr

/-- `toUIItem(f, explanation_md, unified_diff, cwe, owasp)` from
`src/extension.ts` (`vscode.workspace.asRelativePath(f.file)` is modelled
by the finding's own relative path). -/
def toUIItem (f : Finding) (explanation_md : List Char)
    (unified_diff : Option (List Char)) (cwe owasp : Option (List Char)) : UIItem :=
  { fingerprint := f.fingerprint, ruleId := f.ruleId, severity := f.severity,
    file := f.file, relFile := f.relFile, range := f.range, message := f.message,
    cwe := cwe, owasp := owasp, snippet := f.snippet,
    explanation_md := explanation_md, unified_diff := unified_diff }

/-- One task of the enrichment stage of `sec.scan` (step 4 of the command):
`try { const enriched = await enrichFinding(...); reportItems.push(
toUIItem(f, enriched?.explanation_md ?? '', enriched?.fix?.unified_diff ??
null, enriched?.cwe ?? f.cwe, enriched?.owasp ?? f.owasp)) } catch {
reportItems.push(toUIItem(f, '', null, f.cwe, f.owasp)) }`.  `enrich i f`
is the oracle for the `enrichFinding` call on finding `i`
(`Except.error` models a throw); cancellation is modelled as never
requested. -/
def enrichTask (enrich : Nat → Finding → Except (List Char) Enriched)
    (i : Nat) (f : Finding) : UIItem :=
  match enrich i f with
  | .ok e =>
    toUIItem f (e.explanation_md.getD []) (jsNN e.fix_unified_diff none)
      (jsNN e.cwe f.cwe) (jsNN e.owasp f.owasp)
  | .error _ => toUIItem f [] none f.cwe f.owasp

/-- The enrichment stage over the filtered findings: one indexed task per
finding, dispatched through `pLimit`; every task pushes exactly one UI
item and `pLimit` runs all tasks, so the collected items are modelled in
index order (the completion order is unspecified, the multiset of pushed
items is not). -/
def enrichAll (enrich : Nat → Finding → Except (List Char) Enriched)
    (findings : List Finding) : List UIItem :=
  findings.enum.map (fun p => enrichTask enrich p.1 p.2)

/-- C6: enrichment failures are isolated per finding: the published list
keeps one item per finding; the item whose enrichment call threw carries
an empty explanation and a null diff (and the finding's own cwe/owasp);
and the items at every other index do not depend on what happened at the
failing index (replacing the oracle at index `i` only, the other items are
unchanged). -/
theorem enrichment_failure_isolation :
    (∀ (enrich : Nat → Finding → Except (List Char) Enriched)
        (findings : List Finding),
        (enrichAll enrich findings).length = findings.length) ∧
    (∀ (enrich : Nat → Finding → Except (List Char) Enriched)
        (findings : List Finding) (i : Nat) (f : Finding) (err : List Char),
        findings[i]? = some f → enrich i f = .error err →
        (enrichAll enrich findings)[i]? = some (toUIItem f [] none f.cwe f.owasp)) ∧
    (∀ (enrich enrich' : Nat → Finding → Except (List Char) Enriched)
        (findings : List Finding) (i : Nat),
        (∀ j, j ≠ i → enrich j = enrich' j) →
        ∀ j, j ≠ i →
          (enrichAll enrich findings)[j]? = (enrichAll enrich' findings)[j]?) := by
  refine ⟨?_, ?_, ?_⟩
  · intro enrich findings
    simp [enrichAll]
  · intro enrich findings i f err hf herr
    simp [enrichAll, List.getElem?_map, List.getElem?_enum, hf, enrichTask, herr]
  · intro enrich enrich' findings i hagree j hj
    simp only [enrichAll, List.getElem?_map, List.getElem?_enum]
    cases hf : findings[j]? with
    | none => rfl
    | some f => simp [enrichTask, hagree j hj]

/-- Three concrete findings for the isolation witness. -/
def exFindings : List Finding :=
  [fromSemgrep [] rFpA, fromSemgrep [] rFpLine, fromSemgrep [] rawFullRange]

/-- Oracle that throws exactly at index 1. -/
def exEnrichOracle : Nat → Finding → Except (List Char) Enriched :=
  fun i _ =>
    if i = 1 then .error (str "AI enrich error")
    else .ok ⟨some (str "explained"), some (str "diff"), none, none⟩

/-- Same oracle with index 1 succeeding instead. -/
def exEnrichOracle' : Nat → Finding → Except (List Char) Enriched :=
  fun i _ =>
    if i = 1 then .ok ⟨some (str "other"), none, none, none⟩
    else .ok ⟨some (str "explained"), some (str "diff"), none, none⟩

theorem enrichment_failure_isolation_witness :
    (enrichAll exEnrichOracle exFindings).length = exFindings.length ∧
    (enrichAll exEnrichOracle exFindings)[1]?
      = some (toUIItem (fromSemgrep [] rFpLine) [] none
          (fromSemgrep [] rFpLine).cwe (fromSemgrep [] rFpLine).owasp) ∧
    (enrichAll exEnrichOracle exFindings)[0]?
      = (enrichAll exEnrichOracle' exFindings)[0]? :=
  ⟨enrichment_failure_isolation.1 exEnrichOracle exFindings,
   enrichment_failure_isolation.2.1 exEnrichOracle exFindings 1
      (fromSemgrep [] rFpLine) (str "AI enrich error") (by decide) rfl,
   enrichment_failure_isolation.2.2 exEnrichOracle exEnrichOracle' exFindings 1
      (by
        intro j hj
        funext f
        simp [exEnrichOracle, exEnrichOracle', hj])
      0 (by decide)⟩

/-- Status of one `pLimit` worker (`src/extension.ts`): between tasks
(`idle`, about to test `i < tasks.length`), awaiting the task it claimed
(`running idx`), or returned (`done`). -/
inductive WStatus
  | idle
  | running (idx : Nat)
  | done
deriving DecidableEq, Repr

/-- State of a `pLimit(limit, tasks)` execution over `n` tasks: the shared
counter `i`, the status of each spawned worker, and the indices of the
tasks started so far, in claim order. -/
structure LimState where
  counter : Nat
  workers : List WStatus
  started : List Nat
deriving DecidableEq, Repr

/-- Initial state of `pLimit`:
`Array.from({ length: Math.min(limit, tasks.length) })` workers, all about
to enter their `while` loop. -/
def pLimitInit (limit n : Nat) : LimState :=
  ⟨0, List.replicate (min limit n) .idle, []⟩

/-- Small-step transition of the cooperative `pLimit` execution over `n`
tasks.  `claim`: an idle worker sees `i < tasks.length`, runs
`const idx = i++` (no suspension point between read and increment) and
starts task `idx`.  `finish`: the `await tasks[idx]()` of a running worker
completes and the worker loops back to the `while` test.  `exit`: an idle
worker sees `i >= tasks.length` and its async function returns. -/
inductive LimStep (n : Nat) : LimState → LimState → Prop
  | claim (s : LimState) (k : Nat)
      (h : s.workers.get? k = some .idle) (hc : s.counter < n) :
      LimStep n s ⟨s.counter + 1, s.workers.set k (.running s.counter),
        s.started ++ [s.counter]⟩
  | finish (s : LimState) (k idx : Nat)
      (h : s.workers.get? k = some (.running idx)) :
      LimStep n s ⟨s.counter, s.workers.set k .idle, s.started⟩
  | exit (s : LimState) (k : Nat)
      (h : s.workers.get? k = some .idle) (hc : n ≤ s.counter) :
      LimStep n s ⟨s.counter, s.workers.set k .done, s.started⟩

/-- Reachability of `pLimit` states from the initial state. -/
def LimReach (limit n : Nat) (s : LimState) : Prop :=
  Relation.ReflTransGen (LimStep n) (pLimitInit limit n) s

/-- Is a worker currently executing a task? -/
def isRunning : WStatus → Bool
  | .running _ => true
  | _ => false

/-- Weight of a worker status for the termination measure. -/
def wWeight : WStatus → Nat
  | .idle => 1
  | .running _ => 2
  | .done => 0

/-- Termination measure of a `pLimit` state: every step strictly
decreases it. -/
def limMeasure (n : Nat) (s : LimState) : Nat :=
  2 * (n - s.counter) + (s.workers.map wWeight).sum

/-- Inductive invariant of reachable `pLimit` states. -/
def LimInv (limit n : Nat) (s : LimState) : Prop :=
  s.workers.length = min limit n ∧ s.counter ≤ n ∧
  s.started = List.range s.counter ∧
  (WStatus.done ∈ s.workers → n ≤ s.counter)

theorem limReach_inv {limit n : Nat} {s : LimState} (h : LimReach limit n s) :
    LimInv limit n s := by
  induction h with
  | refl =>
    refine ⟨by simp [pLimitInit], by simp [pLimitInit], by simp [pLimitInit], ?_⟩
    intro hd
    have := List.eq_of_mem_replicate hd
    simp at this
  | tail hr step ih =>
    obtain ⟨ihl, ihc, ihs, ihd⟩ := ih
    cases step with
    | claim k h hc =>
      refine ⟨?_, ?_, ?_, ?_⟩ <;> dsimp only
      · simp [List.length_set, ihl]
      · omega
      · rw [ihs, List.range_succ]
      · intro hd
        rcases List.mem_or_eq_of_mem_set hd with hd' | hd'
        · have := ihd hd'
          omega
        · exact absurd hd' (by simp)
    | finish k idx h =>
      refine ⟨?_, ?_, ?_, ?_⟩ <;> dsimp only
      · simp [List.length_set, ihl]
      · exact ihc
      · exact ihs
      · intro hd
        rcases List.mem_or_eq_of_mem_set hd with hd' | hd'
        · exact ihd hd'
        · exact absurd hd' (by simp)
    | exit k h hc =>
      exact ⟨by dsimp only; simp [List.length_set, ihl], ihc, ihs, fun _ => hc⟩

theorem sum_map_set (f : WStatus → Nat) :
    ∀ (l : List WStatus) (k : Nat) (a b : WStatus), l.get? k = some a →
      ((l.set k b).map f).sum + f a = (l.map f).sum + f b := by
  intro l
  induction l with
  | nil => intro k a b h; simp at h
  | cons x xs ih =>
    intro k a b h
    cases k with
    | zero =>
      simp only [List.get?_cons_zero, Option.some.injEq] at h
      subst h
      simp only [List.set_cons_zero, List.map_cons, List.sum_cons]
      omega
    | succ k =>
      simp only [List.get?_cons_succ] at h
      simp only [List.set_cons_succ, List.map_cons, List.sum_cons]
      have := ih k a b h
      omega

/-- C9: the limiter spawns `min(limit, |tasks|)` workers; in every
reachable state at most `limit` tasks are executing concurrently; a
reachable state from which no step is possible has started all `n` tasks
exactly once, in counter order (`started = range n`); and every step
strictly decreases the measure, so every execution reaches such a state. -/
theorem pLimit_bound_and_exactly_once :
    (∀ limit n : Nat, (pLimitInit limit n).workers.length = min limit n) ∧
    (∀ (limit n : Nat) (s : LimState), LimReach limit n s →
        s.workers.countP isRunning ≤ limit) ∧
    (∀ (limit n : Nat) (s : LimState), 0 < limit → LimReach limit n s →
        (∀ s', ¬ LimStep n s s') → s.started = List.range n) ∧
    (∀ (n : Nat) (s s' : LimState), LimStep n s s' →
        limMeasure n s' < limMeasure n s) := by
  refine ⟨fun limit n => by simp [pLimitInit], ?_, ?_, ?_⟩
  · intro limit n s hr
    have hl := (limReach_inv hr).1
    calc s.workers.countP isRunning ≤ s.workers.length := List.countP_le_length _
    _ = min limit n := hl
    _ ≤ limit := Nat.min_le_left _ _
  · intro limit n s hlim hr hstuck
    obtain ⟨ihl, ihc, ihs, ihd⟩ := limReach_inv hr
    have hdone : ∀ w ∈ s.workers, w = WStatus.done := by
      intro w hw
      obtain ⟨k, hk⟩ := List.get?_of_mem hw
      cases w with
      | idle =>
        rcases Nat.lt_or_ge s.counter n with hc | hc
        · exact absurd (LimStep.claim s k hk hc) (hstuck _)
        · exact absurd (LimStep.exit s k hk hc) (hstuck _)
      | running idx => exact absurd (LimStep.finish s k idx hk) (hstuck _)
      | done => rfl
    cases hw : s.workers with
    | nil =>
      rw [hw] at ihl
      simp only [List.length_nil] at ihl
      have hn : n = 0 := by omega
      have hc0 : s.counter = 0 := by omega
      rw [ihs, hc0, hn]
    | cons w ws =>
      have hwdone : WStatus.done ∈ s.workers := by
        rw [hw]
        have := hdone w (by rw [hw]; exact List.mem_cons_self w ws)
        rw [← this]
        exact List.mem_cons_self w ws
      have := ihd hwdone
      have hcn : s.counter = n := by omega
      rw [ihs, hcn]
  · intro n s s' hstep
    cases hstep with
    | claim k h hc =>
      have hsum := sum_map_set wWeight s.workers k .idle (.running s.counter) h
      simp only [limMeasure, wWeight] at hsum ⊢
      omega
    | finish k idx h =>
      have hsum := sum_map_set wWeight s.workers k (.running idx) .idle h
      simp only [limMeasure, wWeight] at hsum ⊢
      omega
    | exit k h hc =>
      have hsum := sum_map_set wWeight s.workers k .idle .done h
      simp only [limMeasure, wWeight] at hsum ⊢
      omega

/-- Intermediate states of a one-task run of `pLimit(3, tasks)`. -/
def limS1 : LimState := ⟨1, [WStatus.running 0], [0]⟩

/-- The worker finished its task and is back at the loop test. -/
def limS2 : LimState := ⟨1, [WStatus.idle], [0]⟩

/-- The worker observed the exhausted counter and returned. -/
def limS3 : LimState := ⟨1, [WStatus.done], [0]⟩

theorem pLimit_bound_and_exactly_once_witness :
    (pLimitInit 3 10).workers.countP isRunning ≤ 3 ∧
    limS3.started = List.range 1 ∧
    limMeasure 1 limS1 < limMeasure 1 (pLimitInit 3 1) := by
  have h1 : LimStep 1 (pLimitInit 3 1) limS1 :=
    LimStep.claim (pLimitInit 3 1) 0 (by decide) (by decide)
  have h2 : LimStep 1 limS1 limS2 := LimStep.finish limS1 0 0 (by decide)
  have h3 : LimStep 1 limS2 limS3 := LimStep.exit limS2 0 (by decide) (by decide)
  have hreach : LimReach 3 1 limS3 :=
    Relation.ReflTransGen.tail
      (Relation.ReflTransGen.tail
        (Relation.ReflTransGen.tail Relation.ReflTransGen.refl h1) h2) h3
  have hstuck : ∀ s', ¬ LimStep 1 limS3 s' := by
    intro s' hstep
    cases hstep with
    | claim k h hc =>
      cases k with
      | zero => simp [limS3] at h
      | succ k => simp [limS3] at h
    | finish k idx h =>
      cases k with
      | zero => simp [limS3] at h
      | succ k => simp [limS3] at h
    | exit k h hc =>
      cases k with
      | zero => simp [limS3] at h
      | succ k => simp [limS3] at h
  exact ⟨pLimit_bound_and_exactly_once.2.1 3 10 _ Relation.ReflTransGen.refl,
         pLimit_bound_and_exactly_once.2.2.1 3 1 limS3 (by decide) hreach hstuck,
         pLimit_bound_and_exactly_once.2.2.2 1 (pLimitInit 3 1) limS1 h1⟩

end VulnScan
